import Mathlib

/-!
Verification of the knowledge-graph core of Zentech-KnowledgeGraph.

A shallow embedding of the pure core of the repository:
relation sanitization and triple grouping (Neo4jConnection.add_triples),
the idempotent MERGE upsert semantics of the per-group write statement,
the Cypher translation guard (Neo4jConnection.generate_cypher),
entity-anchored subgraph retrieval (Neo4jConnection.search_graph),
the visualization node/edge model builder (Neo4jConnection.visualize_subgraph),
and pipe-delimited triple parsing (process_pdf_and_store).

External collaborators (the LLM text generator, the entity extractor, the
Neo4j driver) are modelled as parameters: the LLM output and extracted
entity set are inputs, and the graph store is an explicit state value on
which the Cypher statements used by the code are given their semantics.
-/

namespace KG

/-- ASCII whitespace, the characters removed by a bare Python str.strip(). -/
def isPyWs (c : Char) : Bool :=
  c = ' ' || c = '\t' || c = '\n' || c = '\r' || c = '\x0b' || c = '\x0c'

/-- Characters kept by the regex character class used in add_triples:
letters, digits and underscore, by code point. -/
def isWordChar (c : Char) : Bool :=
  (65 ≤ c.toNat && c.toNat ≤ 90) || (97 ≤ c.toNat && c.toNat ≤ 122) ||
  (48 ≤ c.toNat && c.toNat ≤ 57) || c.toNat = 95

/-- ASCII upper-casing, modelling Python str.upper on ASCII data
(every place the code upper-cases, the relevant characters are ASCII). -/
def asciiUpper (s : String) : String := ⟨s.data.map Char.toUpper⟩

/-- ASCII lower-casing, modelling the Cypher toLower() function on ASCII data. -/
def asciiLower (s : String) : String := ⟨s.data.map Char.toLower⟩

/-- Remove the characters satisfying p from both ends of a list. -/
def stripEndsList (p : Char → Bool) (l : List Char) : List Char :=
  (((l.dropWhile p).reverse.dropWhile p).reverse)

/-- Remove the characters satisfying p from both ends of a string:
the common semantics of Python str.strip and str.strip(chars). -/
def stripEnds (p : Char → Bool) (s : String) : String := ⟨stripEndsList p s.data⟩

/-- Python str.strip() with no argument: strip whitespace from both ends. -/
def pyStripWs (s : String) : String := stripEnds isPyWs s

/-- Python str.strip(chars): strip any character of the given set from both
ends (a character-set strip, not a substring removal). -/
def pyStripChars (s : String) (chars : List Char) : String :=
  stripEnds (fun c => chars.contains c) s

/-- Split a character list on a single separator character, keeping empty
segments: the semantics of Python str.split with a one-character
separator. -/
def splitOnChar (sep : Char) : List Char → List (List Char)
  | [] => [[]]
  | c :: rest =>
    match splitOnChar sep rest with
    | [] => if c = sep then [[], []] else [[c]]
    | h :: t => if c = sep then [] :: h :: t else (c :: h) :: t

/-- Python str.split with a one-character separator, as a String function. -/
def pySplitChar (sep : Char) (s : String) : List String :=
  (splitOnChar sep s.data).map String.mk

/-- Split a character list on the three-backtick code-fence delimiter,
scanning left to right without overlap: the semantics of Python str.split
with that separator. The second argument accumulates the current segment
in reverse. -/
def splitFenceAux : List Char → List Char → List (List Char)
  | [], acc => [acc.reverse]
  | '`' :: '`' :: '`' :: rest, acc => acc.reverse :: splitFenceAux rest []
  | c :: rest, acc => splitFenceAux rest (c :: acc)

/-- Python str.split on the three-backtick delimiter, as a String function. -/
def pySplitFence (s : String) : List String :=
  (splitFenceAux s.data []).map String.mk

/-- Decide whether needle occurs as a contiguous substring of hay,
modelling the Python expression needle in hay on the character lists. -/
def containsSub (needle : List Char) : List Char → Bool
  | [] => needle.isEmpty
  | c :: rest => needle.isPrefixOf (c :: rest) || containsSub needle rest

/-- Python substring containment: sub in s. -/
def strContains (s sub : String) : Bool := containsSub sub.data s.data

/-- Relation sanitization from Neo4jConnection.add_triples:
rel.replace(a single space, underscore), then re.sub removing every
character outside letters, digits and underscore, then str.upper(). -/
def sanitize (rel : String) : String :=
  ⟨(((rel.data.map (fun c => if c = ' ' then '_' else c)).filter
      isWordChar).map Char.toUpper)⟩

/-- Modelled from the spec: the claim describes the sanitizer as
"replacing whitespace with underscores" (all whitespace, not only the
space character), stripping every other character outside the word class,
and upper-casing. Written for comparison with sanitize, which replaces
only the space character. -/
def sanitizeSpecWs (rel : String) : String :=
  ⟨(((rel.data.map (fun c => if isPyWs c then '_' else c)).filter
      isWordChar).map Char.toUpper)⟩

/-- Per-character description of sanitize: a space becomes an underscore,
a word character is upper-cased and kept, everything else is dropped. -/
def sanChar (c : Char) : Option Char :=
  if c = ' ' then some '_'
  else if isWordChar c then some (Char.toUpper c) else none

/-- Append a (subject, object) pair to the group of the given relation key,
keeping first-insertion key order: the semantics of
defaultdict(list)[key].append(pair) over an insertion-ordered dict. -/
def addToGroup (gs : List (String × List (String × String))) (k : String)
    (p : String × String) : List (String × List (String × String)) :=
  match gs with
  | [] => [(k, [p])]
  | (k', ps) :: rest =>
    if k' = k then (k', ps ++ [p]) :: rest else (k', ps) :: addToGroup rest k p

/-- One iteration of the grouping loop of Neo4jConnection.add_triples: a
triple whose relation sanitizes to the empty string is dropped; otherwise
its (subject, object) pair is appended to the group of its sanitized
relation. -/
def groupStep (gs : List (String × List (String × String)))
    (t : String × String × String) :
    List (String × List (String × String)) :=
  let s := sanitize t.2.1
  if s = "" then gs else addToGroup gs s (t.1, t.2.2)

/-- Grouping loop of Neo4jConnection.add_triples: triples whose relation
sanitizes to the empty string are dropped; the rest are grouped by the
sanitized relation, keys in first-occurrence order. -/
def groupTriples (ts : List (String × String × String)) :
    List (String × List (String × String)) :=
  ts.foldl groupStep []

/-- Insert an element at the end of a list unless it is already present:
the effect of a Cypher MERGE of a single node or relationship pattern. -/
def insertIfAbsent {α : Type} [DecidableEq α] (x : α) (xs : List α) : List α :=
  if x ∈ xs then xs else xs ++ [x]

/-- The graph store state: Entity node names and directed typed edges
(subject name, relation type, object name). -/
structure GraphState where
  entities : List String
  edges : List (String × String × String)
deriving DecidableEq, Repr

/-- The empty graph store. -/
def emptyState : GraphState := ⟨[], []⟩

/-- Semantics of one UNWIND iteration of the write statement in add_triples:
MERGE the subject Entity, MERGE the object Entity, MERGE the directed
edge of the group relation type between them. -/
def mergePair (rel : String) (st : GraphState) (p : String × String) :
    GraphState :=
  let ents1 := insertIfAbsent p.1 st.entities
  let ents2 := insertIfAbsent p.2 ents1
  { entities := ents2, edges := insertIfAbsent (p.1, rel, p.2) st.edges }

/-- Run one relation group write: UNWIND the pair list through mergePair. -/
def runGroup (st : GraphState) (g : String × List (String × String)) :
    GraphState :=
  g.2.foldl (mergePair g.1) st

/-- Neo4jConnection.add_triples: group the triples by sanitized relation,
then execute one write statement per group, in insertion order. -/
def add_triples (ts : List (String × String × String)) (st : GraphState) :
    GraphState :=
  (groupTriples ts).foldl runGroup st

/-- The write-operation vocabulary blocked by the guard in generate_cypher. -/
def write_ops : List String := ["CREATE", "SET", "DELETE", "MERGE"]

/-- Candidate-query extraction in Neo4jConnection.generate_cypher, as a
function of the raw model output: strip whitespace; if a code fence occurs,
take the segment after the first fence (Python split on the fence
delimiter, index 1), apply the character-set strip with the characters of
"cypher" plus newline to both ends, and strip whitespace again. -/
def extract_candidate (raw : String) : String :=
  let q := pyStripWs raw
  if strContains q "```" then
    pyStripWs (pyStripChars ((pySplitFence q).getD 1 "")
      ['c', 'y', 'p', 'h', 'e', 'r', '\n'])
  else q

/-- Neo4jConnection.generate_cypher as a function of the raw model output:
extract the candidate, then fail (none, the DisallowedWriteOperation
condition: the code raises ValueError, reports the error and returns None)
whenever the upper-cased candidate contains any write-operation token as a
substring; otherwise return the candidate. -/
def generate_cypher (raw : String) : Option String :=
  let q := extract_candidate raw
  if write_ops.any (fun op => strContains (asciiUpper q) op) then none
  else some q

/-- A subgraph result row of search_graph:
(node name, relationship type, target name). -/
def SRow : Type := String × String × String

/-- Rows produced for one unwound entity name by the retrieval statement of
search_graph: the pattern matches each stored edge in both directions, the
WHERE clause keeps matches whose bound node name contains the entity name
case-insensitively, and the RETURN clause yields
(bound node name, relation type, neighbor name). -/
def rowsFor (g : GraphState) (name : String) : List SRow :=
  g.edges.flatMap (fun e =>
    (if strContains (asciiLower e.1) (asciiLower name)
      then [(e.1, e.2.1, e.2.2)] else []) ++
    (if strContains (asciiLower e.2.2) (asciiLower name)
      then [(e.2.2, e.2.1, e.1)] else []))

/-- Neo4jConnection.search_graph as a function of the extracted candidate
entity names (entity extraction is an external capability) and the graph
state. Returns the result rows together with the number of read queries
issued: an empty candidate set short-circuits to no rows and zero queries;
otherwise one read query runs, whose result is capped by LIMIT 25. -/
def search_graph (ents : List String) (g : GraphState) : List SRow × Nat :=
  if ents.isEmpty then ([], 0)
  else ((ents.flatMap (rowsFor g)).take 25, 1)

/-- A raw result row as consumed by visualize_subgraph: a record whose
node, relationship and target columns may each be absent. -/
structure Row where
  node : Option String
  relationship : Option String
  target : Option String
deriving DecidableEq, Repr

/-- A visualization edge: the joined string id, the source and target node
ids, and the displayed label. -/
structure VEdge where
  id : String
  source : String
  target : String
  label : String
deriving DecidableEq, Repr

/-- The visualization graph model: node ids (entity names) and edges. -/
structure VModel where
  nodes : List String
  edges : List VEdge
deriving DecidableEq, Repr

/-- Whether a row survives the guard in the visualize_subgraph loop: the
row is processed only when both the source and the target name are present
and non-empty (Python truthiness of row.get values). -/
def rowValid (r : Row) : Bool :=
  match r.node, r.target with
  | some s, some t => !(s = "") && !(t = "")
  | _, _ => false

/-- Edge key of a row as the claim and code form it: source name,
relationship (defaulting to RELATED_TO when absent) and target name
joined with hyphens into a single string. -/
def rowEdgeId (r : Row) : String :=
  (r.node.getD "") ++ "-" ++ (r.relationship.getD "RELATED_TO") ++ "-"
    ++ (r.target.getD "")

/-- One iteration of the row loop in Neo4jConnection.visualize_subgraph:
skip the row unless both names are present and non-empty; insert the
source then the target into the node list if new; build the edge id by
joining source, relationship (defaulting to RELATED_TO when the column is
absent) and target with hyphens, and append the edge if its id is new. -/
def stepRow (m : VModel) (r : Row) : VModel :=
  match r.node, r.target with
  | some src, some tgt =>
    if src = "" ∨ tgt = "" then m
    else
      let rel := r.relationship.getD "RELATED_TO"
      let nodes1 := insertIfAbsent tgt (insertIfAbsent src m.nodes)
      let eid := src ++ "-" ++ rel ++ "-" ++ tgt
      let edges1 :=
        if m.edges.any (fun e => e.id = eid) then m.edges
        else m.edges ++ [⟨eid, src, tgt, rel⟩]
      ⟨nodes1, edges1⟩
  | _, _ => m

/-- The node/edge model building part of Neo4jConnection.visualize_subgraph
over the retrieved rows. -/
def build_model (rows : List Row) : VModel := rows.foldl stepRow ⟨[], []⟩

/-- Strip whitespace and then surrounding quote characters from one field,
as parts[i].strip().strip of the quote characters does in
process_pdf_and_store. -/
def cleanField (s : String) : String :=
  pyStripChars (pyStripWs s) ['\'', '"']

/-- One line of the triple extraction loop in process_pdf_and_store: split
on the pipe character; keep lines with exactly three parts whose cleaned
fields are all non-empty, as a triple of the cleaned fields. -/
def parseLine (line : String) : Option (String × String × String) :=
  match pySplitChar '|' line with
  | [p1, p2, p3] =>
    let e1 := cleanField p1
    let rel := cleanField p2
    let e2 := cleanField p3
    if e1 = "" ∨ rel = "" ∨ e2 = "" then none else some (e1, rel, e2)
  | _ => none

/-- Triple parsing in process_pdf_and_store: strip the whole response text,
split it into lines, and collect the parsed triples in order. -/
def parseTriples (text : String) : List (String × String × String) :=
  (pySplitChar '\n' (pyStripWs text)).filterMap parseLine

/-! Helper lemmas shared by the claim theorems. -/

lemma containsSub_iff (n h : List Char) :
    containsSub n h = true ↔ n <:+: h := by
  induction h with
  | nil => simp [containsSub, List.isEmpty_iff]
  | cons c rest ih =>
    simp [containsSub, List.infix_cons_iff, ih, List.isPrefixOf_iff_prefix]

lemma toNat_lt_of_wordChar {c : Char} (h : isWordChar c = true) :
    c.toNat < 123 := by
  simp [isWordChar] at h
  omega

lemma toUpper_wordChar {c : Char} (h : isWordChar c = true) :
    isWordChar (Char.toUpper c) = true := by
  have hb : c.toNat < 123 := toNat_lt_of_wordChar h
  have key : ∀ n, n < 123 → isWordChar (Char.ofNat n) = true →
      isWordChar (Char.toUpper (Char.ofNat n)) = true := by decide
  have h2 : isWordChar (Char.ofNat c.toNat) = true := by
    rwa [Char.ofNat_toNat]
  have h3 := key c.toNat hb h2
  rwa [Char.ofNat_toNat] at h3

lemma sanChar_list (l : List Char) :
    ((l.map (fun c => if c = ' ' then '_' else c)).filter isWordChar).map
        Char.toUpper
      = l.filterMap sanChar := by
  induction l with
  | nil => rfl
  | cons c l ih =>
    by_cases hc : c = ' '
    · have h1 : isWordChar '_' = true := by decide
      have h2 : Char.toUpper '_' = '_' := by decide
      subst hc
      simp [sanChar, h1, h2, ih]
    · by_cases hw : isWordChar c = true
      · simp [sanChar, hc, hw, ih]
      · simp [sanChar, hc, hw, ih]

lemma sanitize_data (rel : String) :
    (sanitize rel).data = rel.data.filterMap sanChar := by
  unfold sanitize
  exact sanChar_list rel.data

/-- C1: for every raw output of the text-generation capability, if the
candidate query (after whitespace trimming and code-fence extraction)
contains any of the tokens CREATE, SET, DELETE, MERGE as a substring of
its upper-cased form (that is, case-insensitively, anywhere, including
inside a quoted literal), then generate_cypher fails with the
DisallowedWriteOperation condition (modelled as none) and returns no
query string. -/
theorem C1_write_guard_blocks (raw op : String) (hop : op ∈ write_ops)
    (h : op.data <:+: (asciiUpper (extract_candidate raw)).data) :
    generate_cypher raw = none := by
  have hc : strContains (asciiUpper (extract_candidate raw)) op = true :=
    (containsSub_iff _ _).mpr h
  have hany : write_ops.any
      (fun o => strContains (asciiUpper (extract_candidate raw)) o) = true :=
    List.any_eq_true.mpr ⟨op, hop, hc⟩
  simp [generate_cypher, hany]

/-- C1 witness: a concrete model output containing DELETE is rejected. -/
theorem C1_witness : generate_cypher "MATCH (n) DELETE n" = none :=
  C1_write_guard_blocks "MATCH (n) DELETE n" "DELETE" (by decide) (by decide)

/-- C3 counterexample: the claim describes sanitization as replacing
whitespace with underscores, but the code replaces only the space
character; on the label holding a tab between the words, the code strips
the tab (yielding ISA) while the claimed description underscores it
(yielding IS_A). -/
theorem C3_counterexample :
    sanitize "is\ta" = "ISA" ∧ sanitizeSpecWs "is\ta" = "IS_A" ∧
      sanitize "is\ta" ≠ sanitizeSpecWs "is\ta" := by
  refine ⟨by decide, by decide, by decide⟩

/-- C3 amended: the sanitized relation equals the per-character map that
turns a space (only the space character, not all whitespace) into an
underscore, keeps word characters upper-cased, and drops every other
character; consequently every output character lies in the word class,
and a triple whose label sanitizes to the empty string is silently
dropped by the grouping step rather than raising an error. -/
theorem C3_sanitizer_spec (rel : String) :
    sanitize rel = ⟨rel.data.filterMap sanChar⟩
    ∧ (∀ c ∈ (sanitize rel).data, isWordChar c = true)
    ∧ sanitize "..." = ""
    ∧ groupTriples [("A", "...", "B")] = [] := by
  refine ⟨?_, ?_, by decide, by decide⟩
  · exact congrArg String.mk (sanitize_data rel)
  · intro c hc
    rw [sanitize_data rel] at hc
    rcases List.mem_filterMap.mp hc with ⟨a, _, ha⟩
    unfold sanChar at ha
    by_cases h1 : a = ' '
    · rw [if_pos h1] at ha
      have h2 := Option.some.inj ha
      rw [← h2]
      decide
    · rw [if_neg h1] at ha
      by_cases h2 : isWordChar a = true
      · rw [if_pos h2] at ha
        have h3 := Option.some.inj ha
        rw [← h3]
        exact toUpper_wordChar h2
      · rw [if_neg h2] at ha
        simp at ha

/-- C3 witness: the amended per-character description instantiated at a
concrete label. -/
theorem C3_witness :
    sanitize "Imposed Fine On!"
      = ⟨("Imposed Fine On!".data.filterMap sanChar)⟩ :=
  (C3_sanitizer_spec "Imposed Fine On!").1

/-- C5: at the model output holding the query MATCH (n) RETURN n.name in
a code fence, the content of the fenced segment (after whitespace
trimming, with no language tag present) is MATCH (n) RETURN n.name, but
generate_cypher returns MATCH (n) RETURN n.nam: the character-set strip
with the characters of the word cypher plus newline also removes the
trailing letter e of the query text itself, contradicting the claim that
no other character of the enclosed query is removed or altered. -/
theorem C5_fence_strip_corrupts_query :
    pyStripWs
        ((pySplitFence (pyStripWs "```\nMATCH (n) RETURN n.name\n```")).getD
          1 "")
      = "MATCH (n) RETURN n.name"
    ∧ generate_cypher "```\nMATCH (n) RETURN n.name\n```"
      = some "MATCH (n) RETURN n.nam" := by
  refine ⟨by decide, by decide⟩

lemma mem_insertIfAbsent {α : Type} [DecidableEq α] {x y : α}
    {xs : List α} : x ∈ insertIfAbsent y xs ↔ x = y ∨ x ∈ xs := by
  by_cases hy : y ∈ xs
  · simp only [insertIfAbsent, if_pos hy]
    exact ⟨Or.inr, fun h => h.elim (fun hxy => hxy ▸ hy) id⟩
  · simp [insertIfAbsent, hy, or_comm]

lemma self_mem_insertIfAbsent {α : Type} [DecidableEq α] (x : α)
    (xs : List α) : x ∈ insertIfAbsent x xs :=
  mem_insertIfAbsent.mpr (Or.inl rfl)

lemma insertIfAbsent_of_mem {α : Type} [DecidableEq α] {x : α}
    {xs : List α} (h : x ∈ xs) : insertIfAbsent x xs = xs := if_pos h

lemma nodup_insertIfAbsent {α : Type} [DecidableEq α] {xs : List α}
    (h : xs.Nodup) (x : α) : (insertIfAbsent x xs).Nodup := by
  by_cases hx : x ∈ xs
  · rw [insertIfAbsent, if_pos hx]
    exact h
  · rw [insertIfAbsent, if_neg hx]
    exact h.append (List.nodup_singleton x) (List.disjoint_singleton.2 hx)

lemma mergePair_idem (rel a b : String) (st : GraphState) :
    mergePair rel (mergePair rel st (a, b)) (a, b)
      = mergePair rel st (a, b) := by
  have ha : a ∈ insertIfAbsent b (insertIfAbsent a st.entities) :=
    mem_insertIfAbsent.mpr (Or.inr (self_mem_insertIfAbsent a _))
  have hb : b ∈ insertIfAbsent b (insertIfAbsent a st.entities) :=
    self_mem_insertIfAbsent b _
  have he : (a, rel, b) ∈ insertIfAbsent (a, rel, b) st.edges :=
    self_mem_insertIfAbsent _ _
  simp only [mergePair]
  rw [insertIfAbsent_of_mem ha, insertIfAbsent_of_mem hb,
    insertIfAbsent_of_mem he]

lemma add_triples_single (a r b : String) (st : GraphState) :
    add_triples [(a, r, b)] st
      = if sanitize r = "" then st
        else mergePair (sanitize r) st (a, b) := by
  by_cases h : sanitize r = ""
  · simp [add_triples, groupTriples, groupStep, h]
  · simp [add_triples, groupTriples, groupStep, h, addToGroup, runGroup]

/-- C2 counterexample: for a triple whose relation label sanitizes to the
empty string, the triple is dropped entirely, so two calls leave the
store empty: there is no Entity node at all for the names A and B, not
exactly one per distinct name as the claim states for every triple. -/
theorem C2_counterexample :
    add_triples [("A", "...", "B")]
        (add_triples [("A", "...", "B")] emptyState)
      = emptyState := by decide

/-- C2 amended: for every triple whose relation label sanitizes to a
non-empty identifier, re-ingestion is a no-op from any store state, and
two ingestions starting from the empty store leave exactly one Entity
node per distinct name of the triple and exactly one edge, of the
sanitized type, between the ordered (subject, object) pair. -/
theorem C2_idempotent_upsert (a r b : String) (h : sanitize r ≠ "") :
    (∀ st : GraphState,
        add_triples [(a, r, b)] (add_triples [(a, r, b)] st)
          = add_triples [(a, r, b)] st)
    ∧ (∀ n : String,
        ((add_triples [(a, r, b)]
            (add_triples [(a, r, b)] emptyState)).entities.count n)
          = if n = a ∨ n = b then 1 else 0)
    ∧ (add_triples [(a, r, b)]
        (add_triples [(a, r, b)] emptyState)).edges
        = [(a, sanitize r, b)] := by
  have hone : ∀ st, add_triples [(a, r, b)] st
      = mergePair (sanitize r) st (a, b) := fun st => by
    rw [add_triples_single, if_neg h]
  have hidem : ∀ st, add_triples [(a, r, b)] (add_triples [(a, r, b)] st)
      = add_triples [(a, r, b)] st := fun st => by
    simp only [hone]
    exact mergePair_idem _ a b st
  refine ⟨hidem, ?_, ?_⟩
  · intro n
    rw [hidem, hone]
    have hea : insertIfAbsent a ([] : List String) = [a] := by
      simp [insertIfAbsent]
    by_cases hba : b = a
    · subst hba
      have heb : insertIfAbsent b [b] = [b] :=
        insertIfAbsent_of_mem (List.mem_singleton.mpr rfl)
      simp only [mergePair, emptyState, hea, heb, or_self]
      by_cases hnb : n = b
      · simp [hnb, List.count_cons]
      · simp [hnb, List.count_cons, List.count_nil]
    · have heb : insertIfAbsent b [a] = [a, b] := by
        simp [insertIfAbsent, hba]
      simp only [mergePair, emptyState, hea, heb]
      have hab : ¬ a = b := fun hc => hba hc.symm
      by_cases hna : n = a
      · have hnb : ¬ n = b := fun hc => hba (hc.symm.trans hna)
        simp [hna, hnb, List.count_cons, List.count_nil, hba, hab]
      · by_cases hnb : n = b
        · simp [hna, hnb, List.count_cons, List.count_nil, hba, hab]
        · simp [hna, hnb, List.count_cons, List.count_nil]
  · rw [hidem, hone]
    simp [mergePair, emptyState, insertIfAbsent]

/-- C2 witness: the amended theorem instantiated at the concrete triple
(A, IS_A, B): after two ingestions from the empty store the edge list is
exactly the single sanitized edge. -/
theorem C2_witness :
    (add_triples [("A", "IS_A", "B")]
        (add_triples [("A", "IS_A", "B")] emptyState)).edges
      = [("A", "IS_A", "B")] :=
  ((C2_idempotent_upsert "A" "IS_A" "B" (by decide)).2.2).trans (by decide)

/-- Sanitized relation key of a triple, when non-empty: the grouping key
under which add_triples batches the triple, none when the triple is
dropped. -/
def relKey (t : String × String × String) : Option String :=
  if sanitize t.2.1 = "" then none else some (sanitize t.2.1)

lemma addToGroup_keys (gs : List (String × List (String × String)))
    (k : String) (p : String × String) :
    (addToGroup gs k p).map Prod.fst
      = insertIfAbsent k (gs.map Prod.fst) := by
  induction gs with
  | nil => simp [addToGroup, insertIfAbsent]
  | cons g rest ih =>
    obtain ⟨k', ps⟩ := g
    by_cases hk : k' = k
    · rw [show addToGroup ((k', ps) :: rest) k p
          = (k', ps ++ [p]) :: rest by simp [addToGroup, hk]]
      simp only [List.map_cons]
      rw [insertIfAbsent_of_mem (List.mem_cons.mpr (Or.inl hk.symm))]
    · rw [show addToGroup ((k', ps) :: rest) k p
          = (k', ps) :: addToGroup rest k p by simp [addToGroup, hk]]
      simp only [List.map_cons, ih]
      by_cases hm : k ∈ rest.map Prod.fst
      · rw [insertIfAbsent_of_mem hm, insertIfAbsent_of_mem
          (List.mem_cons_of_mem _ hm)]
      · have hni : ¬ k ∈ k' :: rest.map Prod.fst := by
          intro hc
          rcases List.mem_cons.mp hc with h1 | h1
          · exact hk h1.symm
          · exact hm h1
        simp only [insertIfAbsent, if_neg hm, if_neg hni]
        simp

lemma groupFold_keys (ts : List (String × String × String)) :
    ∀ gs : List (String × List (String × String)),
      (gs.map Prod.fst).Nodup →
      ((ts.foldl groupStep gs).map Prod.fst).Nodup
      ∧ ∀ k, k ∈ (ts.foldl groupStep gs).map Prod.fst
          ↔ k ∈ gs.map Prod.fst ∨ k ∈ ts.filterMap relKey := by
  induction ts with
  | nil => intro gs hgs; simpa using hgs
  | cons t ts ih =>
    intro gs hgs
    by_cases h : sanitize t.2.1 = ""
    · have hstep : groupStep gs t = gs := by simp [groupStep, h]
      have hrel : relKey t = none := by simp [relKey, h]
      rcases ih gs hgs with ⟨h1, h2⟩
      refine ⟨by simpa [hstep] using h1, fun k => ?_⟩
      simp only [List.foldl_cons, hstep, List.filterMap_cons, hrel]
      exact h2 k
    · have hstep : (groupStep gs t).map Prod.fst
          = insertIfAbsent (sanitize t.2.1) (gs.map Prod.fst) := by
        simp [groupStep, h, addToGroup_keys]
      have hrel : relKey t = some (sanitize t.2.1) := by simp [relKey, h]
      have hnodup : ((groupStep gs t).map Prod.fst).Nodup := by
        rw [hstep]
        exact nodup_insertIfAbsent hgs _
      rcases ih (groupStep gs t) hnodup with ⟨h1, h2⟩
      refine ⟨by simpa using h1, fun k => ?_⟩
      simp only [List.foldl_cons, List.filterMap_cons, hrel]
      rw [h2 k, hstep, mem_insertIfAbsent]
      simp only [List.mem_cons]
      tauto

lemma groupTriples_keys (ts : List (String × String × String)) :
    ((groupTriples ts).map Prod.fst).Nodup
    ∧ ∀ k, k ∈ (groupTriples ts).map Prod.fst ↔ k ∈ ts.filterMap relKey := by
  rcases groupFold_keys ts [] (by simp) with ⟨h1, h2⟩
  exact ⟨h1, fun k => by simpa using h2 k⟩

/-- C4 counterexample: for the input triples
(A, founded, B), (A, Founded, B), (C, founded, D), the labels founded and
Founded sanitize to the same identifier FOUNDED, so exactly one relation
group is issued as a write operation, not two as the claim states. -/
theorem C4_counterexample :
    (groupTriples
        [("A", "founded", "B"), ("A", "Founded", "B"),
          ("C", "founded", "D")]).length = 1
    ∧ ¬ (groupTriples
        [("A", "founded", "B"), ("A", "Founded", "B"),
          ("C", "founded", "D")]).length = 2 := by decide

/-- C4 amended: add_triples issues exactly one write operation per
distinct non-empty sanitized relation type observed in its input, not one
per input triple; in particular, for the input triples
(A, founded, B), (A, Founded, B), (C, founded, D), exactly one relation
group is issued, since founded and Founded sanitize identically. -/
theorem C4_one_write_per_sanitized_type :
    (∀ ts : List (String × String × String),
        (groupTriples ts).length = (ts.filterMap relKey).dedup.length)
    ∧ (groupTriples
        [("A", "founded", "B"), ("A", "Founded", "B"),
          ("C", "founded", "D")]).length = 1 := by
  refine ⟨fun ts => ?_, by decide⟩
  rcases groupTriples_keys ts with ⟨h1, h2⟩
  have hperm : List.Perm ((groupTriples ts).map Prod.fst)
      ((ts.filterMap relKey).dedup) := by
    rw [List.perm_ext_iff_of_nodup h1 (List.nodup_dedup _)]
    intro k
    rw [h2 k, List.mem_dedup]
  have := hperm.length_eq
  rwa [List.length_map] at this

/-- A graph state with twenty-six edges out of the node named a, used to
exhibit the retrieval cap when more than twenty-five rows match. -/
def g26 : GraphState :=
  ⟨["a"], (List.range 26).map
    (fun i => ("a", "R", String.mk (List.replicate i 'b')))⟩

/-- C7: for every extracted candidate entity list and every graph-store
state, search_graph returns at most 25 subgraph result rows; moreover, on
a concrete state where 26 rows match the candidate entities, exactly 25
rows are returned. -/
theorem C7_bounded_retrieval :
    (∀ (ents : List String) (g : GraphState),
        ((search_graph ents g).1).length ≤ 25)
    ∧ (["a"].flatMap (rowsFor g26)).length = 26
    ∧ ((search_graph ["a"] g26).1).length = 25 := by
  refine ⟨fun ents g => ?_, by decide, by decide⟩
  by_cases h : ents.isEmpty
  · simp [search_graph, h]
  · simp only [search_graph, if_neg h]
    rw [List.length_take]
    exact Nat.min_le_left _ _

/-- C7 witness: the bound instantiated at a concrete entity list and
state. -/
theorem C7_witness : ((search_graph ["a"] g26).1).length ≤ 25 :=
  C7_bounded_retrieval.1 ["a"] g26

/-- C8: when the entity-extraction step yields an empty candidate set,
search_graph returns the empty row sequence and issues zero read queries
against the graph store, for every store state. -/
theorem C8_empty_entities_short_circuit (g : GraphState) :
    search_graph [] g = ([], 0) := by
  simp [search_graph]

/-- C8 witness: the short circuit at a concrete state. -/
theorem C8_witness : search_graph [] g26 = ([], 0) :=
  C8_empty_entities_short_circuit g26

/-- C9 counterexample: the line A||B splits into exactly three fields, so
by the claim it should parse to a triple, but the empty middle field makes
the code discard the line: parseTriples returns no triple for it. -/
theorem C9_counterexample :
    pySplitChar '|' "A||B" = ["A", "", "B"]
    ∧ parseTriples "A||B" = [] := by decide

/-- C9 amended: each pipe-delimited line splitting into exactly three
fields, all of which are non-empty after whitespace-and-quote stripping,
parses to the triple of the stripped fields (in particular the quoted
John Doe line parses as the claim states); blank lines, lines not
splitting into exactly three fields, and also three-field lines with an
empty stripped field are discarded without error. -/
theorem C9_triple_parsing :
    parseTriples "'John Doe'|IS_A|Director"
      = [("John Doe", "IS_A", "Director")]
    ∧ (∀ line p1 p2 p3, pySplitChar '|' line = [p1, p2, p3] →
        cleanField p1 ≠ "" → cleanField p2 ≠ "" → cleanField p3 ≠ "" →
        parseLine line = some (cleanField p1, cleanField p2, cleanField p3))
    ∧ (∀ line, (pySplitChar '|' line).length ≠ 3 → parseLine line = none)
    ∧ (∀ line p1 p2 p3, pySplitChar '|' line = [p1, p2, p3] →
        (cleanField p1 = "" ∨ cleanField p2 = "" ∨ cleanField p3 = "") →
        parseLine line = none)
    ∧ parseLine "" = none := by
  refine ⟨by decide, ?_, ?_, ?_, by decide⟩
  · intro line p1 p2 p3 hs h1 h2 h3
    simp only [parseLine, hs]
    rw [if_neg]
    rintro (hc | hc | hc) <;> [exact h1 hc; exact h2 hc; exact h3 hc]
  · intro line h
    unfold parseLine
    split
    · next p1 p2 p3 heq => exact absurd (congrArg List.length heq) h
    · rfl
  · intro line p1 p2 p3 hs h
    simp only [parseLine, hs]
    rw [if_pos h]

/-- C9 witness: the amended parsing rule applied at a concrete
three-field line with non-empty fields. -/
theorem C9_witness : parseLine "x|y|z" = some ("x", "y", "z") :=
  (C9_triple_parsing.2.1 "x|y|z" "x" "y" "z" (by decide) (by decide)
    (by decide) (by decide)).trans (by decide)

/-- C10: a row whose source and target names are present and non-empty
but whose relationship column is absent is not skipped: it produces the
edge labelled with the fixed string RELATED_TO; and for a single row, an
edge is produced exactly when the row passes the source-and-target guard,
so only rows missing a source or target name are dropped. -/
theorem C10_missing_relationship_defaults (s t : String)
    (hs : s ≠ "") (ht : t ≠ "") :
    (build_model [⟨some s, none, some t⟩]).edges
      = [⟨s ++ "-" ++ "RELATED_TO" ++ "-" ++ t, s, t, "RELATED_TO"⟩]
    ∧ ∀ r : Row, (build_model [r]).edges ≠ [] ↔ rowValid r = true := by
  constructor
  · show (stepRow ⟨[], []⟩ ⟨some s, none, some t⟩).edges = _
    simp only [stepRow]
    rw [if_neg (fun hc => hc.elim hs ht)]
    simp
  · intro r
    show (stepRow ⟨[], []⟩ r).edges ≠ [] ↔ rowValid r = true
    rcases r with ⟨node?, rel?, tgt?⟩
    rcases node? with _ | s'
    · simp [stepRow, rowValid]
    · rcases tgt? with _ | t'
      · simp [stepRow, rowValid]
      · by_cases hs' : s' = ""
        · simp [stepRow, rowValid, hs']
        · by_cases ht' : t' = ""
          · simp [stepRow, rowValid, hs', ht']
          · simp [stepRow, rowValid, hs', ht',
              if_neg (fun hc : s' = "" ∨ t' = "" => hc.elim hs' ht')]

/-- C10 witness: the default label at a concrete row. -/
theorem C10_witness :
    (build_model [⟨some "A", none, some "B"⟩]).edges
      = [⟨"A" ++ "-" ++ "RELATED_TO" ++ "-" ++ "B", "A", "B", "RELATED_TO"⟩] :=
  (C10_missing_relationship_defaults "A" "B" (by decide) (by decide)).1

/-- The three subgraph result rows of the concrete dedup example:
(A, FOUNDED, B) twice and (B, LOCATED_IN, C) once. -/
def exRows : List Row :=
  [⟨some "A", some "FOUNDED", some "B"⟩,
    ⟨some "A", some "FOUNDED", some "B"⟩,
    ⟨some "B", some "LOCATED_IN", some "C"⟩]

lemma stepRow_invalid (m : VModel) (r : Row) (h : rowValid r = false) :
    stepRow m r = m := by
  rcases r with ⟨node?, rel?, tgt?⟩
  rcases node? with _ | s
  · rfl
  · rcases tgt? with _ | t
    · rfl
    · have hor : s = "" ∨ t = "" := by
        by_contra hc
        push_neg at hc
        simp [rowValid, hc.1, hc.2] at h
      simp [stepRow, if_pos hor]

lemma stepRow_nodes_nodup (m : VModel) (r : Row) (h : m.nodes.Nodup) :
    (stepRow m r).nodes.Nodup := by
  rcases r with ⟨node?, rel?, tgt?⟩
  rcases node? with _ | s
  · exact h
  · rcases tgt? with _ | t
    · exact h
    · by_cases hor : s = "" ∨ t = ""
      · simpa [stepRow, if_pos hor] using h
      · simp only [stepRow, if_neg hor]
        exact nodup_insertIfAbsent (nodup_insertIfAbsent h s) t

lemma stepRow_edges_nodup (m : VModel) (r : Row)
    (h : (m.edges.map VEdge.id).Nodup) :
    ((stepRow m r).edges.map VEdge.id).Nodup := by
  rcases r with ⟨node?, rel?, tgt?⟩
  rcases node? with _ | s
  · exact h
  · rcases tgt? with _ | t
    · exact h
    · by_cases hor : s = "" ∨ t = ""
      · simpa [stepRow, if_pos hor] using h
      · simp only [stepRow, if_neg hor]
        by_cases hany : m.edges.any
            (fun e => e.id = s ++ "-" ++ (rel?.getD "RELATED_TO") ++ "-" ++ t)
          = true
        · simpa [hany] using h
        · rw [if_neg hany]
          rw [List.map_append]
          refine h.append (List.nodup_singleton _)
            (List.disjoint_singleton.2 ?_)
          intro hc
          rcases List.mem_map.mp hc with ⟨e, he, heq⟩
          rw [Bool.not_eq_true, List.any_eq_false] at hany
          exact absurd (by simpa using heq) (by simpa using hany e he)

lemma stepRow_nodes_mem (m : VModel) (r : Row) (n : String) :
    n ∈ (stepRow m r).nodes ↔ n ∈ m.nodes
      ∨ (rowValid r = true ∧ (some n = r.node ∨ some n = r.target)) := by
  rcases r with ⟨node?, rel?, tgt?⟩
  rcases node? with _ | s
  · simp [stepRow, rowValid]
  · rcases tgt? with _ | t
    · simp [stepRow, rowValid]
    · by_cases hor : s = "" ∨ t = ""
      · have hval : rowValid ⟨some s, rel?, some t⟩ = false := by
          rcases hor with h | h <;> simp [rowValid, h]
        simp [stepRow, if_pos hor, hval]
      · push_neg at hor
        have hval : rowValid ⟨some s, rel?, some t⟩ = true := by
          simp [rowValid, hor.1, hor.2]
        simp only [stepRow, if_neg (fun hc : s = "" ∨ t = "" =>
          hc.elim hor.1 hor.2)]
        rw [mem_insertIfAbsent, mem_insertIfAbsent]
        simp only [hval, Option.some.injEq, true_and]
        tauto

lemma stepRow_edges_mem (m : VModel) (r : Row) (i : String) :
    i ∈ (stepRow m r).edges.map VEdge.id ↔ i ∈ m.edges.map VEdge.id
      ∨ (rowValid r = true ∧ i = rowEdgeId r) := by
  rcases r with ⟨node?, rel?, tgt?⟩
  rcases node? with _ | s
  · simp [stepRow, rowValid]
  · rcases tgt? with _ | t
    · simp [stepRow, rowValid]
    · by_cases hor : s = "" ∨ t = ""
      · have hval : rowValid ⟨some s, rel?, some t⟩ = false := by
          rcases hor with h | h <;> simp [rowValid, h]
        simp [stepRow, if_pos hor, hval]
      · push_neg at hor
        have hval : rowValid ⟨some s, rel?, some t⟩ = true := by
          simp [rowValid, hor.1, hor.2]
        have hid : rowEdgeId ⟨some s, rel?, some t⟩
            = s ++ "-" ++ (rel?.getD "RELATED_TO") ++ "-" ++ t := rfl
        simp only [stepRow, if_neg (fun hc : s = "" ∨ t = "" =>
          hc.elim hor.1 hor.2)]
        by_cases hany : m.edges.any
            (fun e => e.id = s ++ "-" ++ (rel?.getD "RELATED_TO") ++ "-" ++ t)
          = true
        · rw [List.any_eq_true] at hany
          rcases hany with ⟨e, he, heq⟩
          have hmem : s ++ "-" ++ (rel?.getD "RELATED_TO") ++ "-" ++ t
              ∈ m.edges.map VEdge.id :=
            List.mem_map.mpr ⟨e, he, by simpa using heq⟩
          rw [if_pos (by rw [List.any_eq_true]; exact ⟨e, he, heq⟩)]
          simp only [hval, hid, true_and]
          constructor
          · exact Or.inl
          · rintro (h | h)
            · exact h
            · exact h ▸ hmem
        · rw [if_neg hany]
          rw [List.map_append]
          simp [hval, hid]

lemma build_fold_spec (rows : List Row) : ∀ m : VModel,
    m.nodes.Nodup → (m.edges.map VEdge.id).Nodup →
    (rows.foldl stepRow m).nodes.Nodup
    ∧ ((rows.foldl stepRow m).edges.map VEdge.id).Nodup
    ∧ (∀ n, n ∈ (rows.foldl stepRow m).nodes ↔ n ∈ m.nodes
        ∨ ∃ r ∈ rows, rowValid r = true
            ∧ (some n = r.node ∨ some n = r.target))
    ∧ (∀ i, i ∈ (rows.foldl stepRow m).edges.map VEdge.id
        ↔ i ∈ m.edges.map VEdge.id
        ∨ ∃ r ∈ rows, rowValid r = true ∧ i = rowEdgeId r) := by
  induction rows with
  | nil =>
    intro m h1 h2
    exact ⟨h1, h2, fun n => by simp, fun i => by simp⟩
  | cons r rows ih =>
    intro m h1 h2
    obtain ⟨g1, g2, g3, g4⟩ := ih (stepRow m r)
      (stepRow_nodes_nodup m r h1) (stepRow_edges_nodup m r h2)
    refine ⟨g1, g2, fun n => ?_, fun i => ?_⟩
    · rw [List.foldl_cons, g3 n, stepRow_nodes_mem,
        List.exists_mem_cons_iff, or_assoc]
    · rw [List.foldl_cons, g4 i, stepRow_edges_mem,
        List.exists_mem_cons_iff, or_assoc]

/-- C6 counterexample: two rows whose ordered (source, relationship,
target) triples differ, (A, X-Y, B) and (A-X, Y, B), collapse to a single
edge because the code deduplicates by the hyphen-joined string key
A-X-Y-B, not by the triple itself; under the claim the model would hold
two edges. -/
theorem C6_counterexample :
    (([⟨some "A", some "X-Y", some "B"⟩,
        ⟨some "A-X", some "Y", some "B"⟩] : List Row).map
      (fun r => (r.node, r.relationship, r.target))).dedup.length = 2
    ∧ (build_model
        [⟨some "A", some "X-Y", some "B"⟩,
          ⟨some "A-X", some "Y", some "B"⟩]).edges.length = 1 := by decide

/-- C6 amended: the builder skips exactly the rows whose source or target
name is absent or empty; nodes are deduplicated by entity name (the node
list is duplicate-free and holds exactly the names of valid rows); edges
are deduplicated by the single hyphen-joined source-relationship-target
string key (the edge-id list is duplicate-free and holds exactly the
joined keys of valid rows, so distinct triples with equal joined keys
collapse); and on the example rows (A, FOUNDED, B), (A, FOUNDED, B),
(B, LOCATED_IN, C) the model holds exactly the 3 nodes A, B, C and
exactly 2 edges. -/
theorem C6_visualization_dedup :
    (∀ m r, rowValid r = false → stepRow m r = m)
    ∧ (∀ rows : List Row,
        (build_model rows).nodes.Nodup
        ∧ ((build_model rows).edges.map VEdge.id).Nodup
        ∧ (∀ n, n ∈ (build_model rows).nodes
            ↔ ∃ r ∈ rows, rowValid r = true
                ∧ (some n = r.node ∨ some n = r.target))
        ∧ (∀ i, i ∈ (build_model rows).edges.map VEdge.id
            ↔ ∃ r ∈ rows, rowValid r = true ∧ i = rowEdgeId r))
    ∧ (build_model exRows).nodes = ["A", "B", "C"]
    ∧ (build_model exRows).edges.length = 2 := by
  refine ⟨fun m r h => stepRow_invalid m r h, fun rows => ?_,
    by decide, by decide⟩
  obtain ⟨g1, g2, g3, g4⟩ :=
    build_fold_spec rows ⟨[], []⟩ (by simp) (by simp)
  refine ⟨g1, g2, fun n => ?_, fun i => ?_⟩
  · simp only [build_model]
    rw [g3 n]
    simp
  · simp only [build_model]
    rw [g4 i]
    simp

/-- C6 witness: the skip rule of the amended theorem applied at a
concrete model and a concrete row with an absent source name. -/
theorem C6_witness :
    stepRow ⟨[], []⟩ ⟨none, some "R", some "B"⟩ = ⟨[], []⟩ :=
  C6_visualization_dedup.1 ⟨[], []⟩ ⟨none, some "R", some "B"⟩ (by decide)

end KG
